import Mathlib

/-!
Shallow embedding of `src/event_bot.py` (Osiris-Bot): the SQLite-backed
event and signup store, the RSVP mutation protocol of
`EventView.update_embed`, the scheduler batch `_process_due`, the deferred
`cleanup_after_event` task, the bulk cancel command `aoo_cancel_all`, the
next-reminder query `_get_next_reminder_time`, and the poll-creation time
arithmetic of `create_aoo_poll`.

Tables are embedded as lists of row structures; SQLite TEXT comparison
(BINARY collation, i.e. byte-wise lexicographic, which on the ASCII
timestamps stored here is lexicographic comparison of the code points) is
embedded as the executable `sqliteLt`/`sqliteLe`; external Discord calls
are embedded as an oracle assigning an outcome to each message id, and the
actions the code requests from Discord are recorded explicitly.
-/

/-- `AOO_MAX_ATTENDEES = 30` (event_bot.py, line 20). -/
def AOO_MAX_ATTENDEES : Nat := 30

/-- RSVP status, matching the SQL constraint
`CHECK(status IN ('accepted','declined'))` on `aoo_signups`. -/
inductive Status where
  | accepted
  | declined
deriving DecidableEq, Repr

/-- One row of the `aoo_signups` table
(`PRIMARY KEY (message_id, user_id)`, see `setup_database`). -/
structure SignupRow where
  message_id : Nat
  user_id : Nat
  status : Status
deriving DecidableEq, Repr

/-- The `aoo_signups` table. -/
abbrev SignupTable := List SignupRow

/-- `SELECT COUNT(*) FROM aoo_signups WHERE message_id=? AND status='accepted'`. -/
def acceptedCount (mid : Nat) (db : SignupTable) : Nat :=
  (db.filter (fun r => r.message_id = mid ∧ r.status = Status.accepted)).length

/-- `INSERT INTO aoo_signups ... ON CONFLICT(message_id, user_id) DO UPDATE SET
status=excluded.status`. The primary key guarantees at most one row per
(message_id, user_id), so overwriting the first matching row (else appending
a fresh row) is exactly the SQLite upsert. -/
def upsert (mid uid : Nat) (s : Status) : SignupTable → SignupTable
  | [] => [⟨mid, uid, s⟩]
  | r :: rs =>
    if r.message_id = mid ∧ r.user_id = uid then
      ⟨mid, uid, s⟩ :: rs
    else
      r :: upsert mid uid s rs

/-- Outcome of one button press as handled by `EventView.update_embed`:
either the ephemeral "El evento está lleno" rejection, or the Accepted /
Declined user-id lists rendered back into the embed. -/
inductive RsvpResult where
  | capacityExceeded
  | ok (accepted declined : List Nat)
deriving DecidableEq, Repr

/-- `SELECT user_id, status FROM aoo_signups WHERE message_id = ?`. -/
def signupsOf (mid : Nat) (db : SignupTable) : SignupTable :=
  db.filter (fun r => r.message_id = mid)

/-- The `accepted_ids` list comprehension of `update_embed` over the rows of
one message. -/
def acceptedIdsOf (mid : Nat) (db : SignupTable) : List Nat :=
  ((signupsOf mid db).filter (fun r => r.status = Status.accepted)).map
    (fun r => r.user_id)

/-- The `declined_ids` list comprehension of `update_embed` over the rows of
one message. -/
def declinedIdsOf (mid : Nat) (db : SignupTable) : List Nat :=
  ((signupsOf mid db).filter (fun r => r.status = Status.declined)).map
    (fun r => r.user_id)

/-- The store-facing behaviour of `EventView.update_embed` (lines 250-330):
if the requested status is `accepted`, first read the accepted count and
reject with no mutation when it is already at `AOO_MAX_ATTENDEES`;
otherwise upsert the (message, user) status, read back all signups of the
message, and return the Accepted and Declined user-id lists. -/
def setRsvp (db : SignupTable) (mid uid : Nat) (status : Status) :
    RsvpResult × SignupTable :=
  if status = Status.accepted ∧ AOO_MAX_ATTENDEES ≤ acceptedCount mid db then
    (RsvpResult.capacityExceeded, db)
  else
    (RsvpResult.ok
      (acceptedIdsOf mid (upsert mid uid status db))
      (declinedIdsOf mid (upsert mid uid status db)),
      upsert mid uid status db)

/-- A sequence of RSVP button presses, applied in order through `setRsvp`. -/
def applyRsvps (ops : List (Nat × Nat × Status)) (db : SignupTable) : SignupTable :=
  ops.foldl (fun db op => (setRsvp db op.1 op.2.1 op.2.2).2) db

/-- The primary key of an `aoo_signups` row. -/
def keyOf (r : SignupRow) : Nat × Nat := (r.message_id, r.user_id)

/-- The `PRIMARY KEY (message_id, user_id)` constraint: no two rows share a
key. -/
def NodupKeys (db : SignupTable) : Prop := (db.map keyOf).Nodup

/-- The status stored for one (message, user) pair: the first (under the
primary key, only) matching row. -/
def statusOf (mid uid : Nat) (db : SignupTable) : Option Status :=
  (db.find? (fun r => r.message_id = mid ∧ r.user_id = uid)).map (fun r => r.status)

/-- A sequence of RSVP writes (the upserts actually performed), applied in
order. -/
def applyUpserts (ops : List (Nat × Nat × Status)) (db : SignupTable) : SignupTable :=
  ops.foldl (fun db op => upsert op.1 op.2.1 op.2.2 db) db

/-- The status of the most recent write for one (message, user) pair in a
sequence of writes, if any. -/
def lastWrite (mid uid : Nat) (ops : List (Nat × Nat × Status)) : Option Status :=
  (ops.reverse.find? (fun op => op.1 = mid ∧ op.2.1 = uid)).map (fun op => op.2.2)

/-- One row of the `aoo_events` table (`setup_database`, lines 41-48). -/
structure EventRow where
  message_id : Nat
  channel_id : Nat
  reminder_time_utc : String
  is_active : Bool
deriving DecidableEq, Repr

/-- The persistent store `reminders.db`: both tables. -/
structure Store where
  events : List EventRow
  signups : SignupTable
deriving DecidableEq, Repr

/-- Outcome of the block of Discord calls made for one event (fetch channel,
fetch message, create thread, send, delete): all succeed, or
`discord.NotFound` is raised, or some other exception is raised. One oracle
value per message id. -/
inductive ExtOutcome where
  | ok
  | notFound
  | error
deriving DecidableEq, Repr

/-- SQLite's BINARY collation on TEXT values: memcmp on the UTF-8 bytes,
which on the ASCII timestamps this program stores is lexicographic
comparison of the code-point sequences. `sqliteLt a b = true` iff `a`
sorts strictly before `b`. -/
def sqliteLt : List Char → List Char → Bool
  | [], [] => false
  | [], _ :: _ => true
  | _ :: _, [] => false
  | c :: cs, d :: ds =>
    if c < d then true
    else if d < c then false
    else sqliteLt cs ds

/-- SQLite `<=` on TEXT values under BINARY collation. -/
def sqliteLe (a b : List Char) : Bool := !(sqliteLt b a)

/-- `SELECT ... FROM aoo_events WHERE is_active = 1 AND reminder_time_utc <= ?`
(the due batch read by `_process_due`); the TEXT comparison is SQLite
BINARY. -/
def listDue (now : String) (events : List EventRow) : List EventRow :=
  events.filter (fun e =>
    e.is_active ∧ sqliteLe e.reminder_time_utc.data now.data)

/-- `UPDATE aoo_events SET is_active = 0 WHERE message_id = ?`. -/
def deactivate (mid : Nat) (events : List EventRow) : List EventRow :=
  events.map (fun e =>
    if e.message_id = mid then { e with is_active := false } else e)

/-- `SELECT user_id FROM aoo_signups WHERE message_id = ? AND status = 'accepted'`
(the `accepted_ids` read during firing, lines 151-157). -/
def acceptedIdsQuery (mid : Nat) (db : SignupTable) : List Nat :=
  (db.filter (fun r => r.message_id = mid ∧ r.status = Status.accepted)).map
    (fun r => r.user_id)

/-- What `_process_due` does for one due event: the external outcome, the
accepted ids pinged into the thread on success, and whether the deferred
`cleanup_after_event` task was armed. -/
structure FireRecord where
  message_id : Nat
  outcome : ExtOutcome
  notified : List Nat
  cleanupArmed : Bool
deriving DecidableEq, Repr

/-- One iteration of the `for` loop of `_process_due` (lines 135-202): the
`try` block fetches channel and message, creates the thread, reads the
accepted ids and sends the reminder, and arms the cleanup task; both
`except discord.NotFound` and `except Exception` swallow the failure; the
`finally` block always runs `UPDATE aoo_events SET is_active = 0`. -/
def fireOne (ext : Nat → ExtOutcome) (st : Store) (mid : Nat) :
    Store × FireRecord :=
  match ext mid with
  | ExtOutcome.ok =>
    ({ st with events := deactivate mid st.events },
      ⟨mid, ExtOutcome.ok, acceptedIdsQuery mid st.signups, true⟩)
  | o =>
    ({ st with events := deactivate mid st.events }, ⟨mid, o, [], false⟩)

/-- The batch loop of `_process_due` over an already-read list of due rows. -/
def fireAll (ext : Nat → ExtOutcome) (st : Store) :
    List EventRow → Store × List FireRecord
  | [] => (st, [])
  | e :: es =>
    let step := fireOne ext st e.message_id
    let rest := fireAll ext step.1 es
    (rest.1, step.2 :: rest.2)

/-- `_process_due` (lines 117-202): read the batch of active events whose
reminder time is at or before `now`, then process each row in turn. -/
def processDue (now : String) (ext : Nat → ExtOutcome) (st : Store) :
    Store × List FireRecord :=
  fireAll ext st (listDue now st.events)

/-- External actions `cleanup_after_event` requests from Discord. -/
inductive ExtAction where
  | sendThreadMessage (mid : Nat)
  | deleteMessage (mid : Nat)
  | deleteThread (mid : Nat)
deriving DecidableEq, Repr

/-- `cleanup_after_event` (lines 173-192), armed at fire time for one
message: sleep until `event_time` (one hour after the stored reminder time),
then send a closing message to the thread, delete the message, and delete
the thread, each attempt's failure swallowed. It contains no database
statement, so the store passes through unchanged. Returns the computed sleep
delay, the store, and the requested external actions. -/
def cleanup_after_event (event_time now : Int) (mid : Nat) (st : Store) :
    Int × Store × List ExtAction :=
  (max (event_time - now) 0, st,
    [ExtAction.sendThreadMessage mid, ExtAction.deleteMessage mid,
      ExtAction.deleteThread mid])

/-- The reply counters of `aoo_cancel_all`. -/
structure CancelSummary where
  total : Nat
  deleted_msgs : Nat
  cleaned_only : Nat
deriving DecidableEq, Repr

/-- `DELETE FROM aoo_signups WHERE message_id = ?` followed by
`DELETE FROM aoo_events WHERE message_id = ?` (lines 437-441). -/
def deleteEventRows (mid : Nat) (st : Store) : Store :=
  { events := st.events.filter (fun e => ¬ e.message_id = mid),
    signups := st.signups.filter (fun r => ¬ r.message_id = mid) }

/-- One iteration of the `for` loop of `aoo_cancel_all`: try to delete the
Discord message (`discord.NotFound` and any other exception are caught and
only counted), then in all cases delete the event's signup rows and event
row. -/
def cancelStep (ext : Nat → ExtOutcome) (acc : Store × CancelSummary)
    (e : EventRow) : Store × CancelSummary :=
  (deleteEventRows e.message_id acc.1,
    match ext e.message_id with
    | ExtOutcome.ok => { acc.2 with deleted_msgs := acc.2.deleted_msgs + 1 }
    | _ => { acc.2 with cleaned_only := acc.2.cleaned_only + 1 })

/-- `aoo_cancel_all` (lines 400-450): read the active rows; if there are
none, reply and stop; otherwise process each active row with `cancelStep`
and reply with the summary. -/
def aoo_cancel_all (ext : Nat → ExtOutcome) (st : Store) :
    Store × Option CancelSummary :=
  if st.events.filter (fun e => e.is_active) = [] then (st, none)
  else
    ((((st.events.filter (fun e => e.is_active)).foldl (cancelStep ext)
        (st, ⟨(st.events.filter (fun e => e.is_active)).length, 0, 0⟩))).1,
      some ((st.events.filter (fun e => e.is_active)).foldl (cancelStep ext)
        (st, ⟨(st.events.filter (fun e => e.is_active)).length, 0, 0⟩)).2)

/-- The tie-directed binary minimum under the BINARY text order: what
`ORDER BY reminder_time_utc ASC LIMIT 1` accumulates row by row. -/
def strMin (a b : String) : String := if sqliteLt b.data a.data then b else a

/-- The query of `_get_next_reminder_time` (lines 98-105):
`SELECT reminder_time_utc FROM aoo_events WHERE is_active = 1 ORDER BY
reminder_time_utc ASC LIMIT 1` — the smallest stored text among active rows,
or none. (The Python then parses this text back into a datetime; the parse
is a bijection on the stored format, so the model returns the text.) -/
def nextDue (events : List EventRow) : Option String :=
  match (events.filter (fun e => e.is_active)).map
      (fun e => e.reminder_time_utc) with
  | [] => none
  | t :: ts => some (ts.foldl strMin t)

/-- The ASCII digit character for `n < 10`. -/
def digitChar (n : Nat) : Char := Char.ofNat (48 + n)

/-- `n` zero-padded to `w` decimal digits, most significant first: the
rendering of the `%Y`/`%m`/`%d`/`%H` fields in `datetime.isoformat()`. -/
def padDigits : Nat → Nat → List Char
  | 0, _ => []
  | w + 1, n => padDigits w (n / 10) ++ [digitChar (n % 10)]

/-- The exact TEXT `create_aoo_poll` stores:
`reminder_datetime_utc.isoformat()` of an aware UTC datetime whose minute,
second and microsecond are 0, i.e. `YYYY-MM-DDTHH:00:00+00:00`. -/
def isoUTC (y mo d h : Nat) : String :=
  ⟨padDigits 4 y ++ '-' :: (padDigits 2 mo ++ '-' :: (padDigits 2 d ++
    'T' :: (padDigits 2 h ++ ":00:00+00:00".data)))⟩

/-- Chronological order on (year, month, day, hour): lexicographic. -/
def chronoLt (a b : Nat × Nat × Nat × Nat) : Prop :=
  a.1 < b.1 ∨ (a.1 = b.1 ∧ (a.2.1 < b.2.1 ∨ (a.2.1 = b.2.1 ∧
    (a.2.2.1 < b.2.2.1 ∨ (a.2.2.1 = b.2.2.1 ∧ a.2.2.2 < b.2.2.2)))))

/-- One microsecond is Python datetime's resolution; times in the
`create_aoo_poll` model are microseconds since an arbitrary Monday 00:00 UTC
(Python `weekday()`: Monday = 0). -/
def usPerHour : Nat := 3600000000

def usPerDay : Nat := 86400000000

/-- `now_utc.weekday()`. -/
def weekdayOf (t : Nat) : Nat := t / usPerDay % 7

/-- `now_utc.hour`. -/
def hourOf (t : Nat) : Nat := t % usPerDay / usPerHour

/-- `days_ahead = (target_weekday - now_utc.weekday() + 7) % 7`, bumped to 7
when it is 0 and `now_utc.hour >= target_hour` (create_aoo_poll, lines
344-346); for weekday values in 0..6 the Python int arithmetic equals this
Nat arithmetic, since `target_weekday - weekday + 7 >= 1`. -/
def days_ahead (now tw th : Nat) : Nat :=
  if (tw + 7 - weekdayOf now) % 7 = 0 ∧ th ≤ hourOf now then 7
  else (tw + 7 - weekdayOf now) % 7

/-- `event_datetime_utc = (now_utc + timedelta(days=days_ahead)).replace(
hour=target_hour, minute=0, second=0, microsecond=0)` (lines 348-349). -/
def event_datetime_utc (now tw th : Nat) : Nat :=
  (now + days_ahead now tw th * usPerDay) / usPerDay * usPerDay +
    th * usPerHour

/-- `reminder_datetime_utc = event_datetime_utc - timedelta(hours=1)`
(line 350). -/
def reminder_datetime_utc (now tw th : Nat) : Nat :=
  event_datetime_utc now tw th - usPerHour

theorem acceptedCount_nil (mid : Nat) : acceptedCount mid [] = 0 := rfl

theorem acceptedCount_cons (mid : Nat) (r : SignupRow) (rs : SignupTable) :
    acceptedCount mid (r :: rs) =
      (if r.message_id = mid ∧ r.status = Status.accepted then 1 else 0) +
        acceptedCount mid rs := by
  unfold acceptedCount
  by_cases h : r.message_id = mid ∧ r.status = Status.accepted <;>
    simp [List.filter_cons, h, Nat.add_comm]

theorem acceptedCount_upsert_le (mid m u : Nat) (s : Status) (db : SignupTable) :
    acceptedCount mid (upsert m u s db) ≤ acceptedCount mid db + 1 := by
  induction db with
  | nil =>
    by_cases h : m = mid ∧ s = Status.accepted <;>
      simp [upsert, acceptedCount_cons, acceptedCount_nil, h]
  | cons r rs ih =>
    unfold upsert
    by_cases hk : r.message_id = m ∧ r.user_id = u
    · rw [if_pos hk, acceptedCount_cons, acceptedCount_cons]
      have h1 : (if (⟨m, u, s⟩ : SignupRow).message_id = mid ∧
          (⟨m, u, s⟩ : SignupRow).status = Status.accepted then 1 else 0) ≤ 1 := by
        split <;> omega
      omega
    · rw [if_neg hk, acceptedCount_cons, acceptedCount_cons]
      omega

theorem acceptedCount_upsert_declined_le (mid m u : Nat) (db : SignupTable) :
    acceptedCount mid (upsert m u Status.declined db) ≤ acceptedCount mid db := by
  induction db with
  | nil => simp [upsert, acceptedCount_cons, acceptedCount_nil]
  | cons r rs ih =>
    unfold upsert
    by_cases hk : r.message_id = m ∧ r.user_id = u
    · rw [if_pos hk, acceptedCount_cons, acceptedCount_cons]
      have h1 : (if (⟨m, u, Status.declined⟩ : SignupRow).message_id = mid ∧
          (⟨m, u, Status.declined⟩ : SignupRow).status = Status.accepted
          then 1 else 0) = 0 := by
        simp
      omega
    · rw [if_neg hk, acceptedCount_cons, acceptedCount_cons]
      omega

theorem acceptedCount_upsert_ne (mid m u : Nat) (s : Status) (db : SignupTable)
    (hm : m ≠ mid) :
    acceptedCount mid (upsert m u s db) = acceptedCount mid db := by
  induction db with
  | nil =>
    simp [upsert, acceptedCount_cons, acceptedCount_nil, hm]
  | cons r rs ih =>
    unfold upsert
    by_cases hk : r.message_id = m ∧ r.user_id = u
    · rw [if_pos hk, acceptedCount_cons, acceptedCount_cons]
      have h1 : ¬ ((⟨m, u, s⟩ : SignupRow).message_id = mid ∧
          (⟨m, u, s⟩ : SignupRow).status = Status.accepted) := fun hc => hm hc.1
      have h2 : ¬ (r.message_id = mid ∧ r.status = Status.accepted) := by
        intro hc
        exact hm (hk.1 ▸ hc.1)
      rw [if_neg h1, if_neg h2]
    · rw [if_neg hk, acceptedCount_cons, acceptedCount_cons, ih]

theorem setRsvp_preserves_cap (db : SignupTable) (m u : Nat) (s : Status)
    (mid : Nat) (h : acceptedCount mid db ≤ AOO_MAX_ATTENDEES) :
    acceptedCount mid (setRsvp db m u s).2 ≤ AOO_MAX_ATTENDEES := by
  unfold setRsvp
  by_cases hg : s = Status.accepted ∧ AOO_MAX_ATTENDEES ≤ acceptedCount m db
  · simpa [hg] using h
  · simp only [hg, if_false]
    cases s with
    | declined =>
      exact le_trans (acceptedCount_upsert_declined_le mid m u db) h
    | accepted =>
      by_cases hm : m = mid
      · subst hm
        have hlt : acceptedCount m db < AOO_MAX_ATTENDEES := by
          by_contra hge
          exact hg ⟨rfl, le_of_not_lt hge⟩
        have := acceptedCount_upsert_le m m u Status.accepted db
        omega
      · rw [acceptedCount_upsert_ne mid m u Status.accepted db hm]
        exact h

theorem applyRsvps_preserves_cap (ops : List (Nat × Nat × Status))
    (db : SignupTable) (mid : Nat)
    (h : acceptedCount mid db ≤ AOO_MAX_ATTENDEES) :
    acceptedCount mid (applyRsvps ops db) ≤ AOO_MAX_ATTENDEES := by
  induction ops generalizing db with
  | nil => simpa [applyRsvps] using h
  | cons op rest ih =>
    have step := setRsvp_preserves_cap db op.1 op.2.1 op.2.2 mid h
    simpa [applyRsvps] using ih _ step

theorem upsert_absorb (mid uid : Nat) (s s' : Status) (db : SignupTable) :
    upsert mid uid s (upsert mid uid s' db) = upsert mid uid s db := by
  induction db with
  | nil => simp [upsert]
  | cons r rs ih =>
    by_cases hk : r.message_id = mid ∧ r.user_id = uid
    · simp [upsert, hk]
    · simp [upsert, hk, ih]

/-- C1: an accept request against an event whose accepted count is already at
or above `AOO_MAX_ATTENDEES = 30` is rejected with the capacity error and
leaves the signup table untouched; consequently, starting from the empty
table, no sequence of RSVP requests ever pushes an event's accepted count
above 30. -/
theorem rsvp_capacity_invariant :
    (∀ db mid uid, AOO_MAX_ATTENDEES ≤ acceptedCount mid db →
      setRsvp db mid uid Status.accepted = (RsvpResult.capacityExceeded, db)) ∧
    (∀ (ops : List (Nat × Nat × Status)) mid,
      acceptedCount mid (applyRsvps ops []) ≤ AOO_MAX_ATTENDEES) := by
  constructor
  · intro db mid uid h
    unfold setRsvp
    rw [if_pos ⟨rfl, h⟩]
  · intro ops mid
    refine applyRsvps_preserves_cap ops [] mid ?_
    rw [acceptedCount_nil]
    exact Nat.zero_le _

theorem rsvp_capacity_invariant_witness :
    setRsvp ((List.range 30).map (fun i => (⟨1, 100 + i, Status.accepted⟩ : SignupRow)))
        1 7 Status.accepted =
      (RsvpResult.capacityExceeded,
        (List.range 30).map (fun i => (⟨1, 100 + i, Status.accepted⟩ : SignupRow))) :=
  rsvp_capacity_invariant.1 _ 1 7 (by decide)

/-- C9: a Declined RSVP request never hits the capacity check: the upsert is
performed unconditionally and the result is never `capacityExceeded`, whatever
the accepted count of the event. -/
theorem rsvp_declined_always_succeeds (db : SignupTable) (mid uid : Nat) :
    setRsvp db mid uid Status.declined =
      (RsvpResult.ok
        (acceptedIdsOf mid (upsert mid uid Status.declined db))
        (declinedIdsOf mid (upsert mid uid Status.declined db)),
        upsert mid uid Status.declined db) ∧
    (setRsvp db mid uid Status.declined).1 ≠ RsvpResult.capacityExceeded := by
  have hg : ¬ (Status.declined = Status.accepted ∧
      AOO_MAX_ATTENDEES ≤ acceptedCount mid db) := fun hc => by cases hc.1
  constructor
  · unfold setRsvp
    rw [if_neg hg]
  · unfold setRsvp
    rw [if_neg hg]
    exact fun h => RsvpResult.noConfusion h

/-- C5 (counterexample): on a table where 29 other users have accepted,
a first accept by user 7 succeeds, but repeating the identical call is
rejected with `capacityExceeded` instead of returning the same sets. -/
theorem rsvp_accept_twice_cex :
    (setRsvp ((List.range 29).map
        (fun i => (⟨1, 100 + i, Status.accepted⟩ : SignupRow))) 1 7 Status.accepted).1 ≠
      RsvpResult.capacityExceeded ∧
    (setRsvp (setRsvp ((List.range 29).map
        (fun i => (⟨1, 100 + i, Status.accepted⟩ : SignupRow))) 1 7 Status.accepted).2
        1 7 Status.accepted).1 = RsvpResult.capacityExceeded := by
  constructor
  · decide
  · decide

/-- C5 (amended): repeating an accept never mutates the store, and whenever
the accepted count after the first call is still strictly below capacity the
second call returns exactly the first call's result; only when the first call
fills the event to capacity is the repeat rejected with `capacityExceeded`. -/
theorem rsvp_accept_twice_noop (db : SignupTable) (mid uid : Nat) :
    (setRsvp (setRsvp db mid uid Status.accepted).2 mid uid Status.accepted).2 =
      (setRsvp db mid uid Status.accepted).2 ∧
    (acceptedCount mid (setRsvp db mid uid Status.accepted).2 < AOO_MAX_ATTENDEES →
      setRsvp (setRsvp db mid uid Status.accepted).2 mid uid Status.accepted =
        setRsvp db mid uid Status.accepted) := by
  by_cases hg : AOO_MAX_ATTENDEES ≤ acceptedCount mid db
  · have h1 : setRsvp db mid uid Status.accepted = (RsvpResult.capacityExceeded, db) := by
      unfold setRsvp
      rw [if_pos ⟨rfl, hg⟩]
    rw [h1]
    exact ⟨congrArg Prod.snd h1, fun hlt => absurd hg (not_le.mpr hlt)⟩
  · have h1 : (setRsvp db mid uid Status.accepted).2 =
        upsert mid uid Status.accepted db := by
      unfold setRsvp
      rw [if_neg (fun hc => hg hc.2)]
    by_cases hg2 : AOO_MAX_ATTENDEES ≤
        acceptedCount mid (upsert mid uid Status.accepted db)
    · constructor
      · rw [h1]
        unfold setRsvp
        rw [if_pos ⟨rfl, hg2⟩]
      · intro hlt
        rw [h1] at hlt
        exact absurd hg2 (not_le.mpr hlt)
    · have habs := upsert_absorb mid uid Status.accepted Status.accepted db
      have hng2 : ¬ (Status.accepted = Status.accepted ∧ AOO_MAX_ATTENDEES ≤
          acceptedCount mid (upsert mid uid Status.accepted db)) :=
        fun hc => hg2 hc.2
      have hng : ¬ (Status.accepted = Status.accepted ∧ AOO_MAX_ATTENDEES ≤
          acceptedCount mid db) := fun hc => hg hc.2
      constructor
      · rw [h1]
        unfold setRsvp
        rw [if_neg hng2]
        exact habs
      · intro _
        rw [h1]
        unfold setRsvp
        rw [if_neg hng2, if_neg hng, habs]

theorem rsvp_accept_twice_noop_witness :
    (setRsvp (setRsvp [] 1 2 Status.accepted).2 1 2 Status.accepted).2 =
      (setRsvp [] 1 2 Status.accepted).2 ∧
    setRsvp (setRsvp [] 1 2 Status.accepted).2 1 2 Status.accepted =
      setRsvp [] 1 2 Status.accepted :=
  ⟨(rsvp_accept_twice_noop [] 1 2).1,
    (rsvp_accept_twice_noop [] 1 2).2 (by decide)⟩

theorem keys_upsert (mid uid : Nat) (s : Status) (db : SignupTable) :
    (upsert mid uid s db).map keyOf =
      if (mid, uid) ∈ db.map keyOf then db.map keyOf
      else db.map keyOf ++ [(mid, uid)] := by
  induction db with
  | nil => simp [upsert, keyOf]
  | cons r rs ih =>
    by_cases hk : r.message_id = mid ∧ r.user_id = uid
    · have hr : keyOf r = (mid, uid) := by
        simp [keyOf, hk.1, hk.2]
      have hmem : (mid, uid) ∈ (r :: rs).map keyOf := by
        simp [hr]
      rw [upsert, if_pos hk, if_pos hmem]
      simp only [List.map_cons, List.cons.injEq]
      exact ⟨hr.symm, trivial⟩
    · have hr : keyOf r ≠ (mid, uid) := by
        intro h
        simp only [keyOf, Prod.mk.injEq] at h
        exact hk h
      rw [upsert, if_neg hk]
      simp only [List.map_cons, ih]
      by_cases hm : (mid, uid) ∈ rs.map keyOf
      · have hmem : (mid, uid) ∈ keyOf r :: rs.map keyOf := List.mem_cons_of_mem _ hm
        rw [if_pos hm, if_pos hmem]
      · have hmem : (mid, uid) ∉ keyOf r :: rs.map keyOf := by
          intro hc
          rcases List.mem_cons.mp hc with h1 | h1
          · exact hr h1.symm
          · exact hm h1
        rw [if_neg hm, if_neg hmem, List.cons_append]

theorem nodupKeys_upsert (mid uid : Nat) (s : Status) (db : SignupTable)
    (h : NodupKeys db) : NodupKeys (upsert mid uid s db) := by
  unfold NodupKeys at h ⊢
  rw [keys_upsert]
  by_cases hm : (mid, uid) ∈ db.map keyOf
  · rwa [if_pos hm]
  · rw [if_neg hm, List.nodup_append]
    refine ⟨h, List.nodup_singleton _, ?_⟩
    intro x hx hx1
    rw [List.mem_singleton] at hx1
    exact hm (hx1 ▸ hx)

theorem nodupKeys_applyUpserts (ops : List (Nat × Nat × Status))
    (db : SignupTable) (h : NodupKeys db) : NodupKeys (applyUpserts ops db) := by
  induction ops generalizing db with
  | nil => simpa [applyUpserts] using h
  | cons op rest ih =>
    simpa [applyUpserts] using
      ih (upsert op.1 op.2.1 op.2.2 db) (nodupKeys_upsert _ _ _ _ h)

theorem upsert_length_of_mem (mid uid : Nat) (s : Status) (db : SignupTable)
    (h : (mid, uid) ∈ db.map keyOf) :
    (upsert mid uid s db).length = db.length := by
  induction db with
  | nil => simp at h
  | cons r rs ih =>
    by_cases hk : r.message_id = mid ∧ r.user_id = uid
    · rw [upsert, if_pos hk]
      simp
    · rw [upsert, if_neg hk]
      simp only [List.length_cons]
      have h' : (mid, uid) ∈ rs.map keyOf := by
        simp only [List.map_cons, List.mem_cons] at h
        rcases h with h1 | h1
        · exfalso
          apply hk
          simp only [keyOf, Prod.mk.injEq] at h1
          exact ⟨h1.1.symm, h1.2.symm⟩
        · exact h1
      rw [ih h']

theorem statusOf_upsert_same (mid uid : Nat) (s : Status) (db : SignupTable) :
    statusOf mid uid (upsert mid uid s db) = some s := by
  induction db with
  | nil => simp [upsert, statusOf, List.find?]
  | cons r rs ih =>
    by_cases hk : r.message_id = mid ∧ r.user_id = uid
    · rw [upsert, if_pos hk]
      simp [statusOf, List.find?]
    · rw [upsert, if_neg hk]
      unfold statusOf at ih ⊢
      rw [List.find?_cons_of_neg _ (by simpa using hk)]
      exact ih

theorem statusOf_upsert_other (mid uid m u : Nat) (s : Status) (db : SignupTable)
    (hne : ¬ (mid = m ∧ uid = u)) :
    statusOf m u (upsert mid uid s db) = statusOf m u db := by
  induction db with
  | nil =>
    simp only [upsert, statusOf]
    rw [List.find?_cons_of_neg _ (by simpa using hne)]
  | cons r rs ih =>
    by_cases hk : r.message_id = mid ∧ r.user_id = uid
    · rw [upsert, if_pos hk]
      have hrne : ¬ (r.message_id = m ∧ r.user_id = u) := by
        intro hc
        exact hne ⟨hk.1 ▸ hc.1, hk.2 ▸ hc.2⟩
      unfold statusOf
      rw [List.find?_cons_of_neg _ (by simpa using hne),
        List.find?_cons_of_neg _ (by simpa using hrne)]
    · rw [upsert, if_neg hk]
      unfold statusOf at ih ⊢
      by_cases hr : r.message_id = m ∧ r.user_id = u
      · rw [List.find?_cons_of_pos _ (by simpa using hr),
          List.find?_cons_of_pos _ (by simpa using hr)]
      · rw [List.find?_cons_of_neg _ (by simpa using hr),
          List.find?_cons_of_neg _ (by simpa using hr)]
        exact ih

theorem statusOf_applyUpserts (ops : List (Nat × Nat × Status))
    (db : SignupTable) (mid uid : Nat) :
    statusOf mid uid (applyUpserts ops db) =
      match lastWrite mid uid ops with
      | some s => some s
      | none => statusOf mid uid db := by
  induction ops generalizing db with
  | nil => simp [applyUpserts, lastWrite, List.find?]
  | cons op rest ih =>
    obtain ⟨a, b, c⟩ := op
    rw [show applyUpserts ((a, b, c) :: rest) db =
        applyUpserts rest (upsert a b c db) from rfl, ih]
    cases hfind : rest.reverse.find? (fun op => op.1 = mid ∧ op.2.1 = uid) with
    | some o =>
      have h1 : lastWrite mid uid rest = some o.2.2 := by
        unfold lastWrite
        rw [hfind]
        rfl
      have h2 : lastWrite mid uid ((a, b, c) :: rest) = some o.2.2 := by
        unfold lastWrite
        rw [List.reverse_cons, List.find?_append, hfind]
        rfl
      rw [h1, h2]
    | none =>
      have h1 : lastWrite mid uid rest = none := by
        unfold lastWrite
        rw [hfind]
        rfl
      rw [h1]
      by_cases hop : a = mid ∧ b = uid
      · have h2 : lastWrite mid uid ((a, b, c) :: rest) = some c := by
          unfold lastWrite
          rw [List.reverse_cons, List.find?_append, hfind,
            List.find?_cons_of_pos _ (by simpa using hop)]
          rfl
        rw [h2]
        obtain ⟨rfl, rfl⟩ := hop
        exact statusOf_upsert_same a b c db
      · have h2 : lastWrite mid uid ((a, b, c) :: rest) = none := by
          unfold lastWrite
          rw [List.reverse_cons, List.find?_append, hfind,
            List.find?_cons_of_neg _ (by simpa using hop)]
          rfl
        rw [h2]
        exact statusOf_upsert_other a b mid uid c db hop

/-- C8: starting from the empty signup table, every sequence of RSVP writes
keeps at most one row per (message, user) primary key; an upsert for a key
already present never changes the number of rows; and after any sequence of
writes each (message, user) pair holds exactly the status of its most recent
write. -/
theorem signup_primary_key :
    (∀ ops : List (Nat × Nat × Status), NodupKeys (applyUpserts ops [])) ∧
    (∀ (mid uid : Nat) (s : Status) (db : SignupTable),
      (mid, uid) ∈ db.map keyOf → (upsert mid uid s db).length = db.length) ∧
    (∀ (ops : List (Nat × Nat × Status)) (mid uid : Nat),
      statusOf mid uid (applyUpserts ops []) = lastWrite mid uid ops) := by
  refine ⟨?_, upsert_length_of_mem, ?_⟩
  · intro ops
    exact nodupKeys_applyUpserts ops [] (by simp [NodupKeys])
  · intro ops mid uid
    rw [statusOf_applyUpserts]
    cases lastWrite mid uid ops with
    | some s => rfl
    | none => simp [statusOf, List.find?]

theorem signup_primary_key_witness :
    (upsert 1 2 Status.declined [⟨1, 2, Status.accepted⟩]).length =
      ([⟨1, 2, Status.accepted⟩] : SignupTable).length :=
  signup_primary_key.2.1 1 2 Status.declined [⟨1, 2, Status.accepted⟩] (by decide)

theorem fireOne_fst (ext : Nat → ExtOutcome) (st : Store) (mid : Nat) :
    (fireOne ext st mid).1 = { st with events := deactivate mid st.events } := by
  unfold fireOne
  cases ext mid <;> rfl

theorem fireOne_snd_mid (ext : Nat → ExtOutcome) (st : Store) (mid : Nat) :
    ((fireOne ext st mid).2).message_id = mid := by
  unfold fireOne
  cases ext mid <;> rfl

theorem fireOne_snd_outcome (ext : Nat → ExtOutcome) (st : Store) (mid : Nat) :
    ((fireOne ext st mid).2).outcome = ext mid := by
  unfold fireOne
  cases ext mid <;> rfl

theorem fireAll_signups (ext : Nat → ExtOutcome) (st : Store)
    (es : List EventRow) : (fireAll ext st es).1.signups = st.signups := by
  induction es generalizing st with
  | nil => rfl
  | cons e es ih =>
    show (fireAll ext (fireOne ext st e.message_id).1 es).1.signups = st.signups
    rw [ih, fireOne_fst]

theorem fireAll_mids (ext : Nat → ExtOutcome) (st : Store) (es : List EventRow) :
    (fireAll ext st es).2.map (fun fr => fr.message_id) =
      es.map (fun e => e.message_id) := by
  induction es generalizing st with
  | nil => rfl
  | cons e es ih =>
    show List.map (fun fr => fr.message_id)
        ((fireOne ext st e.message_id).2 ::
          (fireAll ext (fireOne ext st e.message_id).1 es).2) = _
    simp only [List.map_cons]
    rw [fireOne_snd_mid, ih]

theorem fireAll_outcomes (ext : Nat → ExtOutcome) (st : Store)
    (es : List EventRow) :
    ∀ fr ∈ (fireAll ext st es).2, fr.outcome = ext fr.message_id := by
  induction es generalizing st with
  | nil => intro fr h; cases h
  | cons e es ih =>
    intro fr h
    have h' : fr ∈ (fireOne ext st e.message_id).2 ::
        (fireAll ext (fireOne ext st e.message_id).1 es).2 := h
    rcases List.mem_cons.mp h' with h1 | h1
    · subst h1
      rw [fireOne_snd_outcome, fireOne_snd_mid]
    · exact ih _ fr h1

theorem fireAll_events (ext : Nat → ExtOutcome) (st : Store) (es : List EventRow) :
    (fireAll ext st es).1.events =
      (es.map (fun e => e.message_id)).foldl
        (fun evs m => deactivate m evs) st.events := by
  induction es generalizing st with
  | nil => rfl
  | cons e es ih =>
    show (fireAll ext (fireOne ext st e.message_id).1 es).1.events = _
    rw [ih, fireOne_fst]
    simp only [List.map_cons, List.foldl_cons]

theorem processDue_mids (now : String) (ext : Nat → ExtOutcome) (st : Store) :
    (processDue now ext st).2.map (fun fr => fr.message_id) =
      (listDue now st.events).map (fun e => e.message_id) :=
  fireAll_mids ext st (listDue now st.events)

theorem processDue_events (now : String) (ext : Nat → ExtOutcome) (st : Store) :
    (processDue now ext st).1.events =
      ((listDue now st.events).map (fun e => e.message_id)).foldl
        (fun evs m => deactivate m evs) st.events :=
  fireAll_events ext st (listDue now st.events)

theorem deactivate_makes_inactive (m : Nat) (evs : List EventRow) :
    ∀ e ∈ deactivate m evs, e.message_id = m → e.is_active = false := by
  intro e he hm
  rcases List.mem_map.mp he with ⟨e0, he0, rfl⟩
  by_cases h0 : e0.message_id = m
  · simp [h0]
  · rw [if_neg h0] at hm ⊢
    exact absurd hm h0

theorem foldl_deactivate_keeps_inactive (ms : List Nat) (evs : List EventRow)
    (m : Nat) (h : ∀ e ∈ evs, e.message_id = m → e.is_active = false) :
    ∀ e' ∈ ms.foldl (fun evs m => deactivate m evs) evs,
      e'.message_id = m → e'.is_active = false := by
  induction ms generalizing evs with
  | nil => exact h
  | cons m0 ms ih =>
    intro e' he' hm
    simp only [List.foldl_cons] at he'
    refine ih (deactivate m0 evs) ?_ e' he' hm
    intro e he hem
    rcases List.mem_map.mp he with ⟨e0, he0, rfl⟩
    by_cases h0 : e0.message_id = m0
    · simp [h0]
    · rw [if_neg h0] at hem ⊢
      exact h e0 he0 hem

theorem foldl_deactivate_inactive (ms : List Nat) (evs : List EventRow) :
    ∀ e' ∈ ms.foldl (fun evs m => deactivate m evs) evs,
      e'.message_id ∈ ms → e'.is_active = false := by
  induction ms generalizing evs with
  | nil =>
    intro e' _ h
    cases h
  | cons m0 ms ih =>
    intro e' he' hm
    simp only [List.foldl_cons] at he'
    rcases List.mem_cons.mp hm with h1 | h1
    · exact foldl_deactivate_keeps_inactive ms (deactivate m0 evs) m0
        (deactivate_makes_inactive m0 evs) e' he' h1
    · exact ih (deactivate m0 evs) e' he' h1

theorem foldl_deactivate_not_mem (ms : List Nat) (evs : List EventRow) :
    ∀ e' ∈ ms.foldl (fun evs m => deactivate m evs) evs,
      e'.message_id ∉ ms → e' ∈ evs := by
  induction ms generalizing evs with
  | nil => intro e' h _; exact h
  | cons m0 ms ih =>
    intro e' he' hm
    simp only [List.foldl_cons] at he'
    have h1 : e' ∈ deactivate m0 evs :=
      ih (deactivate m0 evs) e' he' (fun hc => hm (List.mem_cons_of_mem _ hc))
    rcases List.mem_map.mp h1 with ⟨e0, he0, rfl⟩
    by_cases h0 : e0.message_id = m0
    · exfalso
      apply hm
      rw [if_pos h0]
      show ({ e0 with is_active := false } : EventRow).message_id ∈ m0 :: ms
      simp [h0]
    · rw [if_neg h0]
      exact he0

theorem mem_listDue (now : String) (evs : List EventRow) (e : EventRow) :
    e ∈ listDue now evs ↔
      e ∈ evs ∧ e.is_active = true ∧
        sqliteLe e.reminder_time_utc.data now.data = true := by
  unfold listDue
  rw [List.mem_filter]
  constructor
  · intro ⟨h1, h2⟩
    rw [decide_eq_true_eq] at h2
    exact ⟨h1, by simpa using h2.1, h2.2⟩
  · intro ⟨h1, h2, h3⟩
    refine ⟨h1, ?_⟩
    rw [decide_eq_true_eq]
    exact ⟨by simp [h2], h3⟩

/-- C3: the batch processed by one firing pass is exactly the events that are
active with stored reminder time at or below `now` (under the SQL text
comparison); every batch member is inactive afterwards; rows outside the
batch are untouched; inactive events are never selected; and a second firing
pass, at any later query time and with any external outcomes, never fires an
event of the first batch again. -/
theorem scheduler_batch_exactly_once (now now' : String)
    (ext ext' : Nat → ExtOutcome) (st : Store) :
    ((processDue now ext st).2.map (fun fr => fr.message_id) =
      (st.events.filter (fun e =>
        e.is_active ∧ sqliteLe e.reminder_time_utc.data now.data)).map
        (fun e => e.message_id)) ∧
    (∀ e ∈ listDue now st.events, e.is_active = true) ∧
    (∀ e' ∈ (processDue now ext st).1.events,
      e'.message_id ∈ (listDue now st.events).map (fun e => e.message_id) →
        e'.is_active = false) ∧
    (∀ e' ∈ (processDue now ext st).1.events,
      e'.message_id ∉ (listDue now st.events).map (fun e => e.message_id) →
        e' ∈ st.events) ∧
    (∀ fr ∈ (processDue now ext st).2,
      fr.message_id ∉
        (processDue now' ext' (processDue now ext st).1).2.map
          (fun fr => fr.message_id)) := by
  refine ⟨processDue_mids now ext st, ?_, ?_, ?_, ?_⟩
  · intro e he
    exact ((mem_listDue now st.events e).mp he).2.1
  · intro e' he' hm
    rw [processDue_events] at he'
    exact foldl_deactivate_inactive _ st.events e' he' hm
  · intro e' he' hm
    rw [processDue_events] at he'
    exact foldl_deactivate_not_mem _ st.events e' he' hm
  · intro fr hfr hmem
    have hfst : fr.message_id ∈
        (processDue now ext st).2.map (fun fr => fr.message_id) :=
      List.mem_map_of_mem _ hfr
    rw [processDue_mids] at hfst
    rw [processDue_mids] at hmem
    rcases List.mem_map.mp hmem with ⟨e, he, hemid⟩
    have hact := ((mem_listDue now' _ e).mp he).2.1
    have hin : e ∈ (processDue now ext st).1.events :=
      ((mem_listDue now' _ e).mp he).1
    rw [processDue_events] at hin
    have : e.is_active = false := by
      refine foldl_deactivate_inactive _ st.events e hin ?_
      rw [hemid]
      exact hfst
    rw [hact] at this
    cases this

theorem scheduler_batch_exactly_once_witness :
    (⟨5, ExtOutcome.ok, [], true⟩ : FireRecord).message_id ∉
      (processDue "b" (fun _ => ExtOutcome.ok)
        (processDue "b" (fun _ => ExtOutcome.ok)
          ⟨[⟨5, 9, "a", true⟩], []⟩).1).2.map (fun fr => fr.message_id) :=
  (scheduler_batch_exactly_once "b" "b" (fun _ => ExtOutcome.ok)
    (fun _ => ExtOutcome.ok) ⟨[⟨5, 9, "a", true⟩], []⟩).2.2.2.2
    ⟨5, ExtOutcome.ok, [], true⟩ (by decide)

/-- C6: during batch firing, per-event external failures (NotFound or any
other exception) are caught: every due event of the batch still produces a
processing record whatever the outcomes, the recorded outcome is exactly the
external result, and the event is deactivated even when its notification
failed. -/
theorem scheduler_failure_isolation (now : String) (ext : Nat → ExtOutcome)
    (st : Store) :
    ((processDue now ext st).2.map (fun fr => fr.message_id) =
      (listDue now st.events).map (fun e => e.message_id)) ∧
    (∀ fr ∈ (processDue now ext st).2, fr.outcome = ext fr.message_id) ∧
    (∀ fr ∈ (processDue now ext st).2, ∀ e' ∈ (processDue now ext st).1.events,
      e'.message_id = fr.message_id → e'.is_active = false) := by
  refine ⟨processDue_mids now ext st, ?_, ?_⟩
  · exact fireAll_outcomes ext st (listDue now st.events)
  · intro fr hfr e' he' hmid
    have hfst : fr.message_id ∈
        (processDue now ext st).2.map (fun fr => fr.message_id) :=
      List.mem_map_of_mem _ hfr
    rw [processDue_mids] at hfst
    rw [processDue_events] at he'
    refine foldl_deactivate_inactive _ st.events e' he' ?_
    rw [hmid]
    exact hfst

theorem scheduler_failure_isolation_witness :
    (⟨5, ExtOutcome.error, [], false⟩ : FireRecord).outcome =
      (fun _ => ExtOutcome.error) 5 ∧
    (⟨5, 9, "a", false⟩ : EventRow).is_active = false :=
  ⟨(scheduler_failure_isolation "b" (fun _ => ExtOutcome.error)
      ⟨[⟨5, 9, "a", true⟩], []⟩).2.1 ⟨5, ExtOutcome.error, [], false⟩ (by decide),
    (scheduler_failure_isolation "b" (fun _ => ExtOutcome.error)
      ⟨[⟨5, 9, "a", true⟩], []⟩).2.2 ⟨5, ExtOutcome.error, [], false⟩ (by decide)
      ⟨5, 9, "a", false⟩ (by decide) rfl⟩

/-- C2 (counterexample): on a store still holding the deactivated event row
and a signup row for message 5, the deferred cleanup task leaves both
tables exactly as they were — it deletes no Signup row and no Event row. -/
theorem cleanup_store_rows_cex :
    ((cleanup_after_event 7200 0 5
        ⟨[⟨5, 9, "a", false⟩], [⟨5, 1, Status.accepted⟩]⟩).2.1.events.filter
      (fun e => e.message_id = 5) ≠ []) ∧
    ((cleanup_after_event 7200 0 5
        ⟨[⟨5, 9, "a", false⟩], [⟨5, 1, Status.accepted⟩]⟩).2.1.signups.filter
      (fun r => r.message_id = 5) ≠ []) := by
  constructor
  · decide
  · decide

/-- C2 (amended): the deferred cleanup task armed at fire time sleeps until
the event time (one hour after the stored reminder time) and then only
requests best-effort deletion of the external message and thread, after a
closing thread message; it performs no store mutation, so the event's
Signup rows and its (now inactive) Event row remain in the store. -/
theorem cleanup_external_only (event_time now : Int) (mid : Nat) (st : Store) :
    (cleanup_after_event event_time now mid st).2.1 = st ∧
    (cleanup_after_event event_time now mid st).2.2 =
      [ExtAction.sendThreadMessage mid, ExtAction.deleteMessage mid,
        ExtAction.deleteThread mid] ∧
    (now ≤ event_time →
      (cleanup_after_event event_time now mid st).1 = event_time - now) := by
  refine ⟨rfl, rfl, ?_⟩
  intro h
  unfold cleanup_after_event
  simp only
  omega

theorem cleanup_external_only_witness :
    (cleanup_after_event 7200 3600 5 ⟨[], []⟩).2.1 = (⟨[], []⟩ : Store) ∧
    (cleanup_after_event 7200 3600 5 ⟨[], []⟩).1 = 7200 - 3600 :=
  ⟨(cleanup_external_only 7200 3600 5 ⟨[], []⟩).1,
    (cleanup_external_only 7200 3600 5 ⟨[], []⟩).2.2 (by decide)⟩

theorem cancel_foldl_fst (ext : Nat → ExtOutcome) (rows : List EventRow)
    (st : Store) (c : CancelSummary) :
    (rows.foldl (cancelStep ext) (st, c)).1 =
      rows.foldl (fun s e => deleteEventRows e.message_id s) st := by
  induction rows generalizing st c with
  | nil => rfl
  | cons r rs ih =>
    simp only [List.foldl_cons]
    exact ih (deleteEventRows r.message_id st) ((cancelStep ext (st, c) r).2)

theorem foldl_delete_subset (rows : List EventRow) (st : Store) :
    (∀ e' ∈ (rows.foldl (fun s e => deleteEventRows e.message_id s) st).events,
      e' ∈ st.events) ∧
    (∀ r ∈ (rows.foldl (fun s e => deleteEventRows e.message_id s) st).signups,
      r ∈ st.signups) := by
  induction rows generalizing st with
  | nil => exact ⟨fun _ h => h, fun _ h => h⟩
  | cons r0 rs ih =>
    constructor
    · intro e' h
      simp only [List.foldl_cons] at h
      have h1 := (ih (deleteEventRows r0.message_id st)).1 e' h
      exact (List.mem_filter.mp h1).1
    · intro r h
      simp only [List.foldl_cons] at h
      have h1 := (ih (deleteEventRows r0.message_id st)).2 r h
      exact (List.mem_filter.mp h1).1

theorem foldl_delete_removes (rows : List EventRow) (st : Store) (m : Nat)
    (hm : m ∈ rows.map (fun e => e.message_id)) :
    (∀ e' ∈ (rows.foldl (fun s e => deleteEventRows e.message_id s) st).events,
      e'.message_id ≠ m) ∧
    (∀ r ∈ (rows.foldl (fun s e => deleteEventRows e.message_id s) st).signups,
      r.message_id ≠ m) := by
  induction rows generalizing st with
  | nil => simp at hm
  | cons r0 rs ih =>
    simp only [List.map_cons, List.mem_cons] at hm
    by_cases h1 : m ∈ rs.map (fun e => e.message_id)
    · have := ih (deleteEventRows r0.message_id st) h1
      simpa [List.foldl_cons] using this
    · have hm0 : m = r0.message_id := by
        rcases hm with h | h
        · exact h
        · exact absurd h h1
      constructor
      · intro e' he'
        simp only [List.foldl_cons] at he'
        have h2 : e' ∈ (deleteEventRows r0.message_id st).events :=
          (foldl_delete_subset rs (deleteEventRows r0.message_id st)).1 e' he'
        have h3 := (List.mem_filter.mp h2).2
        rw [decide_eq_true_eq] at h3
        rw [hm0]
        exact h3
      · intro r hr
        simp only [List.foldl_cons] at hr
        have h2 : r ∈ (deleteEventRows r0.message_id st).signups :=
          (foldl_delete_subset rs (deleteEventRows r0.message_id st)).2 r hr
        have h3 := (List.mem_filter.mp h2).2
        rw [decide_eq_true_eq] at h3
        rw [hm0]
        exact h3

/-- C7: `aoo_cancel_all` removes the event row and all signup rows of every
event that was active when it started, whatever the outcome of the external
message deletions (success, NotFound, or any other failure), and afterwards
no active event remains in the store. -/
theorem cancel_all_cleans_store (ext : Nat → ExtOutcome) (st : Store) :
    (∀ e ∈ st.events, e.is_active = true →
      (∀ e' ∈ (aoo_cancel_all ext st).1.events,
        e'.message_id ≠ e.message_id) ∧
      (∀ r ∈ (aoo_cancel_all ext st).1.signups,
        r.message_id ≠ e.message_id)) ∧
    (∀ e' ∈ (aoo_cancel_all ext st).1.events, e'.is_active = false) := by
  by_cases hempty : st.events.filter (fun e => e.is_active) = []
  · have hres : (aoo_cancel_all ext st).1 = st := by
      unfold aoo_cancel_all
      rw [if_pos hempty]
    rw [hres]
    constructor
    · intro e he hact
      exfalso
      have : e ∈ st.events.filter (fun e => e.is_active) :=
        List.mem_filter.mpr ⟨he, by simp [hact]⟩
      rw [hempty] at this
      cases this
    · intro e' he'
      by_contra hact
      have hact' : e'.is_active = true := by
        cases h : e'.is_active
        · exact absurd h hact
        · rfl
      have : e' ∈ st.events.filter (fun e => e.is_active) :=
        List.mem_filter.mpr ⟨he', by simp [hact']⟩
      rw [hempty] at this
      cases this
  · have hres : (aoo_cancel_all ext st).1 =
        (st.events.filter (fun e => e.is_active)).foldl
          (fun s e => deleteEventRows e.message_id s) st := by
      unfold aoo_cancel_all
      rw [if_neg hempty]
      exact cancel_foldl_fst ext _ st _
    rw [hres]
    constructor
    · intro e he hact
      have hmem : e ∈ st.events.filter (fun e => e.is_active) :=
        List.mem_filter.mpr ⟨he, by simp [hact]⟩
      have hmid : e.message_id ∈
          (st.events.filter (fun e => e.is_active)).map
            (fun e => e.message_id) :=
        List.mem_map_of_mem _ hmem
      exact foldl_delete_removes _ st e.message_id hmid
    · intro e' he'
      by_contra hact
      have hact' : e'.is_active = true := by
        cases h : e'.is_active
        · exact absurd h hact
        · rfl
      have hsub : e' ∈ st.events :=
        (foldl_delete_subset _ st).1 e' he'
      have hmem : e' ∈ st.events.filter (fun e => e.is_active) :=
        List.mem_filter.mpr ⟨hsub, by simp [hact']⟩
      have hmid : e'.message_id ∈
          (st.events.filter (fun e => e.is_active)).map
            (fun e => e.message_id) :=
        List.mem_map_of_mem _ hmem
      exact (foldl_delete_removes _ st e'.message_id hmid).1 e' he' rfl

theorem cancel_all_cleans_store_witness :
    (6 : Nat) ≠ 5 ∧ (⟨6, 9, "a", false⟩ : EventRow).is_active = false := by
  have h := cancel_all_cleans_store (fun _ => ExtOutcome.notFound)
    ⟨[⟨5, 9, "a", true⟩, ⟨6, 9, "a", false⟩], [⟨5, 1, Status.accepted⟩]⟩
  refine ⟨(h.1 ⟨5, 9, "a", true⟩ (by decide) rfl).1 ⟨6, 9, "a", false⟩
    (by decide), h.2 ⟨6, 9, "a", false⟩ (by decide)⟩

theorem event_datetime_gt (now tw th : Nat) (htw : tw < 7) (hth : th < 24) :
    now < event_datetime_utc now tw th := by
  unfold event_datetime_utc days_ahead weekdayOf hourOf usPerDay usPerHour
  split
  · omega
  · omega

theorem usPerHour_le_event (now tw th : Nat) (htw : tw < 7) (hth : th < 24) :
    usPerHour ≤ event_datetime_utc now tw th := by
  unfold event_datetime_utc days_ahead weekdayOf hourOf usPerDay usPerHour
  split
  · omega
  · omega

/-- C10: for every current time, target weekday (0..6) and target hour
(0..23), the computed event time is strictly in the future and the stored
reminder time is exactly one hour before it; and the reminder time can
already lie in the past at insertion, e.g. on Saturday 13:30 UTC for the
Saturday 14:00 poll. -/
theorem poll_time_arithmetic :
    (∀ now tw th : Nat, tw < 7 → th < 24 →
      now < event_datetime_utc now tw th ∧
      reminder_datetime_utc now tw th + usPerHour =
        event_datetime_utc now tw th) ∧
    (∃ now tw th : Nat, tw < 7 ∧ th < 24 ∧
      reminder_datetime_utc now tw th < now) := by
  constructor
  · intro now tw th htw hth
    refine ⟨event_datetime_gt now tw th htw hth, ?_⟩
    have h := usPerHour_le_event now tw th htw hth
    unfold reminder_datetime_utc
    omega
  · refine ⟨5 * usPerDay + 13 * usPerHour + 1800000000, 5, 14,
      by omega, by omega, ?_⟩
    unfold reminder_datetime_utc event_datetime_utc days_ahead weekdayOf
      hourOf usPerDay usPerHour
    decide

theorem poll_time_arithmetic_witness :
    (0 : Nat) < event_datetime_utc 0 5 14 ∧
    reminder_datetime_utc 0 5 14 + usPerHour = event_datetime_utc 0 5 14 :=
  poll_time_arithmetic.1 0 5 14 (by decide) (by decide)

theorem sqliteLt_cons (c d : Char) (s t : List Char) :
    sqliteLt (c :: s) (d :: t) =
      if c < d then true else if d < c then false else sqliteLt s t := rfl

theorem sqliteLt_cons_same (c : Char) (s t : List Char) :
    sqliteLt (c :: s) (c :: t) = sqliteLt s t := by
  rw [sqliteLt_cons, if_neg (lt_irrefl c), if_neg (lt_irrefl c)]

theorem sqliteLt_self : ∀ l : List Char, sqliteLt l l = false
  | [] => rfl
  | c :: cs => by
    rw [sqliteLt_cons_same]
    exact sqliteLt_self cs

theorem sqliteLt_asymm : ∀ a b : List Char,
    sqliteLt a b = true → sqliteLt b a = false
  | [], [] => fun h => by cases h
  | [], _ :: _ => fun _ => rfl
  | _ :: _, [] => fun h => by cases h
  | c :: cs, d :: ds => fun h => by
    rw [sqliteLt_cons] at h
    rw [sqliteLt_cons]
    by_cases hcd : c < d
    · rw [if_neg (lt_asymm hcd), if_pos hcd]
    · by_cases hdc : d < c
      · rw [if_neg hcd, if_pos hdc] at h
        cases h
      · rw [if_neg hcd, if_neg hdc] at h
        rw [if_neg hdc, if_neg hcd]
        exact sqliteLt_asymm cs ds h

theorem sqliteLt_trans : ∀ a b c : List Char,
    sqliteLt a b = true → sqliteLt b c = true → sqliteLt a c = true
  | [], [], _ => fun h1 _ => by cases h1
  | _ :: _, [], _ => fun h1 _ => by cases h1
  | a, b :: bs, [] => fun _ h2 => by cases h2
  | [], b :: bs, c :: cs => fun _ _ => rfl
  | a :: as, b :: bs, c :: cs => fun h1 h2 => by
    rw [sqliteLt_cons] at h1 h2 ⊢
    by_cases hab : a < b
    · by_cases hbc : b < c
      · rw [if_pos (lt_trans hab hbc)]
      · by_cases hcb : c < b
        · rw [if_neg hbc, if_pos hcb] at h2
          cases h2
        · have hbceq : b = c := le_antisymm (le_of_not_lt hcb) (le_of_not_lt hbc)
          rw [if_pos (hbceq ▸ hab)]
    · by_cases hba : b < a
      · rw [if_neg hab, if_pos hba] at h1
        cases h1
      · have habeq : a = b := le_antisymm (le_of_not_lt hba) (le_of_not_lt hab)
        rw [if_neg hab, if_neg hba] at h1
        by_cases hbc : b < c
        · rw [if_pos (habeq ▸ hbc : a < c)]
        · by_cases hcb : c < b
          · rw [if_neg hbc, if_pos hcb] at h2
            cases h2
          · rw [if_neg hbc, if_neg hcb] at h2
            have hbceq : b = c := le_antisymm (le_of_not_lt hcb) (le_of_not_lt hbc)
            have hac : ¬ a < c := by
              rw [habeq, hbceq]
              exact lt_irrefl c
            have hca : ¬ c < a := by
              rw [habeq, hbceq]
              exact lt_irrefl c
            rw [if_neg hac, if_neg hca]
            exact sqliteLt_trans as bs cs h1 h2

theorem sqliteLt_total : ∀ a b : List Char,
    sqliteLt a b = false → a = b ∨ sqliteLt b a = true
  | [], [] => fun _ => Or.inl rfl
  | [], _ :: _ => fun h => by cases h
  | _ :: _, [] => fun _ => Or.inr rfl
  | c :: cs, d :: ds => fun h => by
    rw [sqliteLt_cons] at h
    by_cases hcd : c < d
    · rw [if_pos hcd] at h
      cases h
    · by_cases hdc : d < c
      · exact Or.inr (by rw [sqliteLt_cons, if_pos hdc])
      · have heq : c = d := le_antisymm (le_of_not_lt hdc) (le_of_not_lt hcd)
        rw [if_neg hcd, if_neg hdc] at h
        rcases sqliteLt_total cs ds h with h1 | h1
        · exact Or.inl (by rw [heq, h1])
        · exact Or.inr (by rw [sqliteLt_cons, if_neg (heq ▸ hdc), if_neg (heq ▸ hcd)]; exact h1)

theorem digitChar_lt_iff : ∀ i < 10, ∀ j < 10,
    ((digitChar i < digitChar j) ↔ i < j) := by decide

theorem digitChar_eq_iff : ∀ i < 10, ∀ j < 10,
    ((digitChar i = digitChar j) ↔ i = j) := by decide

theorem padDigits_succ_append (w n : Nat) (u : List Char) :
    padDigits (w + 1) n ++ u =
      padDigits w (n / 10) ++ (digitChar (n % 10) :: u) := by
  show (padDigits w (n / 10) ++ [digitChar (n % 10)]) ++ u = _
  rw [List.append_assoc]
  rfl

theorem sqliteLt_padDigits (w : Nat) : ∀ a b : Nat, ∀ s t : List Char,
    a < 10 ^ w → b < 10 ^ w →
    (sqliteLt (padDigits w a ++ s) (padDigits w b ++ t) = true ↔
      a < b ∨ (a = b ∧ sqliteLt s t = true)) := by
  induction w with
  | zero =>
    intro a b s t ha hb
    have ha0 : a = 0 := by omega
    have hb0 : b = 0 := by omega
    subst ha0
    subst hb0
    simp [padDigits]
  | succ w ih =>
    intro a b s t ha hb
    rw [pow_succ] at ha hb
    have ha' : a / 10 < 10 ^ w := by omega
    have hb' : b / 10 < 10 ^ w := by omega
    have hma : a % 10 < 10 := by omega
    have hmb : b % 10 < 10 := by omega
    rw [padDigits_succ_append, padDigits_succ_append,
      ih (a / 10) (b / 10) _ _ ha' hb', sqliteLt_cons]
    by_cases hlt : digitChar (a % 10) < digitChar (b % 10)
    · have h1 : a % 10 < b % 10 := (digitChar_lt_iff _ hma _ hmb).mp hlt
      rw [if_pos hlt]
      constructor
      · intro h
        left
        rcases h with h | ⟨h, _⟩ <;> omega
      · intro h
        rcases h with h | ⟨heq, _⟩
        · have : a / 10 < b / 10 ∨ a / 10 = b / 10 := by omega
          rcases this with h' | h'
          · exact Or.inl h'
          · exact Or.inr ⟨h', rfl⟩
        · omega
    · by_cases hgt : digitChar (b % 10) < digitChar (a % 10)
      · have h1 : b % 10 < a % 10 := (digitChar_lt_iff _ hmb _ hma).mp hgt
        rw [if_neg hlt, if_pos hgt]
        constructor
        · intro h
          rcases h with h | ⟨_, hfalse⟩
          · left
            omega
          · cases hfalse
        · intro h
          rcases h with h | ⟨heq, _⟩
          · left
            omega
          · omega
      · have heqd : digitChar (a % 10) = digitChar (b % 10) :=
          le_antisymm (le_of_not_lt hgt) (le_of_not_lt hlt)
        have h1 : a % 10 = b % 10 := (digitChar_eq_iff _ hma _ hmb).mp heqd
        rw [if_neg hlt, if_neg hgt]
        constructor
        · intro h
          rcases h with h | ⟨heq, hst⟩
          · left
            omega
          · by_cases hab : a = b
            · exact Or.inr ⟨hab, hst⟩
            · left
              omega
        · intro h
          rcases h with h | ⟨heq, hst⟩
          · by_cases hdivs : a / 10 = b / 10
            · exact Or.inr ⟨hdivs, by omega⟩
            · left
              omega
          · exact Or.inr ⟨by omega, hst⟩

theorem sqliteLt_isoUTC (y1 mo1 d1 h1 y2 mo2 d2 h2 : Nat)
    (hy1 : y1 < 10000) (hmo1 : mo1 < 100) (hd1 : d1 < 100) (hh1 : h1 < 100)
    (hy2 : y2 < 10000) (hmo2 : mo2 < 100) (hd2 : d2 < 100) (hh2 : h2 < 100) :
    (sqliteLt (isoUTC y1 mo1 d1 h1).data (isoUTC y2 mo2 d2 h2).data = true ↔
      chronoLt (y1, mo1, d1, h1) (y2, mo2, d2, h2)) := by
  have e4 : (10000 : Nat) = 10 ^ 4 := by norm_num
  have e2 : (100 : Nat) = 10 ^ 2 := by norm_num
  show sqliteLt
      (padDigits 4 y1 ++ '-' :: (padDigits 2 mo1 ++ '-' :: (padDigits 2 d1 ++
        'T' :: (padDigits 2 h1 ++ ":00:00+00:00".data))))
      (padDigits 4 y2 ++ '-' :: (padDigits 2 mo2 ++ '-' :: (padDigits 2 d2 ++
        'T' :: (padDigits 2 h2 ++ ":00:00+00:00".data)))) = true ↔ _
  rw [sqliteLt_padDigits 4 y1 y2 _ _ (e4 ▸ hy1) (e4 ▸ hy2),
    sqliteLt_cons_same,
    sqliteLt_padDigits 2 mo1 mo2 _ _ (e2 ▸ hmo1) (e2 ▸ hmo2),
    sqliteLt_cons_same,
    sqliteLt_padDigits 2 d1 d2 _ _ (e2 ▸ hd1) (e2 ▸ hd2),
    sqliteLt_cons_same,
    sqliteLt_padDigits 2 h1 h2 _ _ (e2 ▸ hh1) (e2 ▸ hh2),
    sqliteLt_self]
  simp [chronoLt]

theorem strMin_le (t b z : String) (hz : z = t ∨ z = b) :
    sqliteLt z.data (strMin t b).data = false := by
  unfold strMin
  by_cases hc : sqliteLt b.data t.data = true
  · rw [if_pos hc]
    rcases hz with rfl | rfl
    · exact sqliteLt_asymm _ _ hc
    · exact sqliteLt_self _
  · rw [if_neg hc]
    rcases hz with rfl | rfl
    · exact sqliteLt_self _
    · cases h : sqliteLt z.data t.data
      · rfl
      · exact absurd h hc

theorem foldl_strMin_mem (t : String) (ts : List String) :
    ts.foldl strMin t = t ∨ ts.foldl strMin t ∈ ts := by
  induction ts generalizing t with
  | nil => exact Or.inl rfl
  | cons b bs ih =>
    simp only [List.foldl_cons]
    rcases ih (strMin t b) with h | h
    · rw [h]
      unfold strMin
      by_cases hc : sqliteLt b.data t.data = true
      · rw [if_pos hc]
        exact Or.inr (List.mem_cons_self b bs)
      · rw [if_neg hc]
        exact Or.inl rfl
    · exact Or.inr (List.mem_cons_of_mem b h)

theorem foldl_strMin_min (t : String) (ts : List String) :
    ∀ x : String, (x = t ∨ x ∈ ts) →
      sqliteLt x.data (ts.foldl strMin t).data = false := by
  induction ts generalizing t with
  | nil =>
    intro x hx
    rcases hx with rfl | h
    · exact sqliteLt_self _
    · cases h
  | cons b bs ih =>
    intro x hx
    simp only [List.foldl_cons]
    have hmr : sqliteLt (strMin t b).data
        (bs.foldl strMin (strMin t b)).data = false :=
      ih (strMin t b) (strMin t b) (Or.inl rfl)
    have key : ∀ z : String, (z = t ∨ z = b) →
        sqliteLt z.data (bs.foldl strMin (strMin t b)).data = false := by
      intro z hz
      have hzm : sqliteLt z.data (strMin t b).data = false := strMin_le t b z hz
      rcases sqliteLt_total _ _ hzm with heq | hlt
      · rw [heq]
        exact hmr
      · cases hr : sqliteLt z.data (bs.foldl strMin (strMin t b)).data
        · rfl
        · have htr := sqliteLt_trans _ _ _ hlt hr
          rw [htr] at hmr
          cases hmr
    rcases hx with rfl | hx
    · exact key x (Or.inl rfl)
    · rcases List.mem_cons.mp hx with rfl | hxs
      · exact key x (Or.inr rfl)
      · exact ih (strMin t b) x (Or.inr hxs)

/-- C4: the next-reminder query returns none exactly when no active event
exists; otherwise it returns the stored text of an active row below which no
other active row's text sorts in the SQL BINARY order; and on the texts the
program stores (`isoUTC` with in-range fields) the SQL BINARY order
coincides exactly with chronological order. -/
theorem nextDue_min :
    (∀ events : List EventRow,
      nextDue events = none ↔ events.filter (fun e => e.is_active) = []) ∧
    (∀ (events : List EventRow) (m : String), nextDue events = some m →
      m ∈ (events.filter (fun e => e.is_active)).map
        (fun e => e.reminder_time_utc) ∧
      ∀ t ∈ (events.filter (fun e => e.is_active)).map
          (fun e => e.reminder_time_utc),
        sqliteLt t.data m.data = false) ∧
    (∀ y1 mo1 d1 h1 y2 mo2 d2 h2 : Nat, y1 < 10000 → mo1 < 100 → d1 < 100 →
      h1 < 100 → y2 < 10000 → mo2 < 100 → d2 < 100 → h2 < 100 →
      (sqliteLt (isoUTC y1 mo1 d1 h1).data (isoUTC y2 mo2 d2 h2).data = true ↔
        chronoLt (y1, mo1, d1, h1) (y2, mo2, d2, h2))) := by
  refine ⟨?_, ?_, sqliteLt_isoUTC⟩
  · intro events
    constructor
    · intro h
      by_contra hne
      cases hfm : (events.filter (fun e => e.is_active)).map
          (fun e => e.reminder_time_utc) with
      | nil => exact hne (List.map_eq_nil_iff.mp hfm)
      | cons a as =>
        have hsome : nextDue events = some (as.foldl strMin a) := by
          unfold nextDue
          rw [hfm]
        rw [h] at hsome
        cases hsome
    · intro h
      unfold nextDue
      rw [h]
      rfl
  · intro events m hm
    cases hfm : (events.filter (fun e => e.is_active)).map
        (fun e => e.reminder_time_utc) with
    | nil =>
      unfold nextDue at hm
      rw [hfm] at hm
      cases hm
    | cons a as =>
      unfold nextDue at hm
      rw [hfm] at hm
      have hme : as.foldl strMin a = m := by
        injection hm
      constructor
      · rw [← hme]
        rcases foldl_strMin_mem a as with h | h
        · rw [h]
          exact List.mem_cons_self a as
        · exact List.mem_cons_of_mem a h
      · intro t ht
        rw [← hme]
        rcases List.mem_cons.mp ht with heq | hts
        · exact foldl_strMin_min a as t (Or.inl heq)
        · exact foldl_strMin_min a as t (Or.inr hts)

theorem nextDue_min_witness :
    (isoUTC 2025 11 8 12 ∈
      (([⟨5, 9, isoUTC 2025 11 8 13, true⟩,
         ⟨6, 9, isoUTC 2025 11 8 12, true⟩] : List EventRow).filter
        (fun e => e.is_active)).map (fun e => e.reminder_time_utc)) ∧
    chronoLt (2025, 11, 8, 12) (2025, 11, 8, 13) :=
  ⟨(nextDue_min.2.1 [⟨5, 9, isoUTC 2025 11 8 13, true⟩,
      ⟨6, 9, isoUTC 2025 11 8 12, true⟩] (isoUTC 2025 11 8 12) (by decide)).1,
    (nextDue_min.2.2 2025 11 8 12 2025 11 8 13
      (by decide) (by decide) (by decide) (by decide)
      (by decide) (by decide) (by decide) (by decide)).mp (by decide)⟩
